import Mathlib

/-!
Verification of the typomat repository's core against its specification.

This file shallowly embeds the relevant Go source into Lean:
* `pkg/alphabet` and `internal/tokenizer` (part_010, first snapshot):
  `splitMixedCaseToken`, `isTokenValid`, `tokenizeWord`, `TokenizeString`,
  and the line-reading loop of `TokenizeFile`;
* `pkg/random/lazy.Sample` and `pkg/random.Shuffle`, with the calls to
  `rand.IntN(i+1)` abstracted by an oracle `g : Nat → Nat` whose value is
  reduced `% (i+1)` — every concrete run of the Go code corresponds to
  some oracle and vice versa;
* the domain layer of part_019: `processFile`, `tokenizeDirectory`
  (buffered flushing, removal pruning) over an explicit in-memory model
  of the token store, plus the greedy packing loop of `generatePrompt`.

Go strings are modelled as `List Char` (one `Char` per rune); Go `int`
values are Lean `Int`/`Nat` (no arithmetic here approaches 2^63, overflow
never matters for the verified statements).
-/

/- ===== pkg/alphabet/alphabet.go ===== -/

/-- Go `alphabet.LowerCaseRunes`: all lowercase runes of the English alphabet. -/
def lowerCaseRunes : List Char :=
  ['a', 'b', 'c', 'd', 'e', 'f', 'g', 'h', 'i', 'j', 'k', 'l', 'm',
   'n', 'o', 'p', 'q', 'r', 's', 't', 'u', 'v', 'w', 'x', 'y', 'z']

/-- Go `alphabet.UpperCaseRunes`: all uppercase runes of the English alphabet. -/
def upperCaseRunes : List Char :=
  ['A', 'B', 'C', 'D', 'E', 'F', 'G', 'H', 'I', 'J', 'K', 'L', 'M',
   'N', 'O', 'P', 'Q', 'R', 'S', 'T', 'U', 'V', 'W', 'X', 'Y', 'Z']

/-- Go `alphabet.AllRunes = append(LowerCaseRunes, UpperCaseRunes...)`. -/
def allRunes : List Char := lowerCaseRunes ++ upperCaseRunes

/- ===== internal/tokenizer (part_010, first snapshot) ===== -/

/-- The tokenizer's `Case` type (`CaseLower | CaseUpper`). -/
inductive RuneCase where
  | lower
  | upper
deriving DecidableEq, Repr

/-- ASCII uppercase test.  Stands in for Go's `unicode.IsUpper`, with which
it agrees on the ASCII range; every rune reaching the case logic of this
pipeline has passed `isTokenValid` and therefore is an ASCII letter. -/
def isAsciiUpper (c : Char) : Bool := 'A' ≤ c && c ≤ 'Z'

/-- Go `getRuneCase`: `CaseUpper` if `unicode.IsUpper(r)`, else `CaseLower`. -/
def getRuneCase (c : Char) : RuneCase :=
  if isAsciiUpper c then .upper else .lower

/-- The `flush` closure of `splitMixedCaseToken`: emit `currentToken` if
non-empty. -/
def smcFlush (cur : List Char) : List (List Char) :=
  if cur.isEmpty then [] else [cur]

/-- Go `isPreviousLower`: `i > 0 && getRuneCase(word[i-1]) == CaseLower`,
with the previous rune carried explicitly (`none` at index 0). -/
def prevIsLower : Option Char → Bool
  | some p => getRuneCase p == RuneCase.lower
  | none => false

/-- Go `isNextLower`: `i < len(word)-1 && getRuneCase(word[i+1]) == CaseLower`,
with the next rune peeked from the unprocessed tail. -/
def nextIsLower : List Char → Bool
  | n :: _ => getRuneCase n == RuneCase.lower
  | [] => false

/-- Loop body of `splitMixedCaseToken`.  The Go loop indexes
`word[i-1]`/`word[i+1]`; here `prev` carries the previous rune and the
next rune is peeked from the tail, which is the same data. -/
def smcAux : Option Char → List Char → List Char → List (List Char)
  | _, cur, [] => smcFlush cur
  | prev, cur, r :: rest =>
    if getRuneCase r == RuneCase.upper &&
        (prevIsLower prev || nextIsLower rest) then
      smcFlush cur ++ smcAux (some r) [r] rest
    else
      smcAux (some r) (cur ++ [r]) rest

/-- Go `splitMixedCaseToken`: split a mixed-case identifier into subtokens,
treating acronym runs as single tokens (`JSONData` → `JSON`, `Data`). -/
def splitMixedCaseToken (word : List Char) : List (List Char) :=
  smcAux none [] word

/-- Go `tokenDelimiters`: punctuation and ASCII digits.  `Char.ofNat` codes:
123 = left brace, 125 = right brace, 34 = double quote, 39 = apostrophe,
96 = backtick. -/
def tokenDelimiters : List Char :=
  ['.', ',', '!', '?', ';', ':', '(', ')', '[', ']',
   Char.ofNat 123, Char.ofNat 125, Char.ofNat 34, Char.ofNat 39,
   '-', '_', '/', '<', '>', '@', Char.ofNat 96,
   '0', '1', '2', '3', '4', '5', '6', '7', '8', '9']

/-- Go `wordDelimiters`: ASCII whitespace (space, tab, newline, vertical tab
= 0x0B, form feed = 0x0C, carriage return). -/
def wordDelimiters : List Char :=
  [' ', '\t', '\n', Char.ofNat 11, Char.ofNat 12, '\r']

/-- Go `isTokenValid`: every rune of the token is in `alphabet.AllRunes`. -/
def isTokenValid (token : List Char) : Bool :=
  token.all (fun r => allRunes.contains r)

/-- The lowering loop inside `tokenizeWord`'s `flush`: keep the valid
subtokens, lowercased (Go `strings.ToLower`; `Char.toLower` agrees with it
on the ASCII letters that valid subtokens consist of). -/
def lowerValidSubtokens : List (List Char) → List (List Char)
  | [] => []
  | sub :: rest =>
    if isTokenValid sub then sub.map Char.toLower :: lowerValidSubtokens rest
    else lowerValidSubtokens rest

/-- The `flush` closure of `tokenizeWord`. -/
def twFlush (cur : List Char) : List (List Char) :=
  if cur.length > 0 && isTokenValid cur then
    lowerValidSubtokens (splitMixedCaseToken cur)
  else []

/-- Loop of `tokenizeWord`: split the word on `tokenDelimiters`. -/
def twAux : List Char → List Char → List (List Char)
  | cur, [] => twFlush cur
  | cur, ch :: rest =>
    if tokenDelimiters.contains ch then twFlush cur ++ twAux [] rest
    else twAux (cur ++ [ch]) rest

/-- Go `tokenizeWord word`. -/
def tokenizeWord (word : List Char) : List (List Char) :=
  twAux [] word

/-- The `flush` closure of `TokenizeString`: apply the word filter, then
tokenize the accumulated word. -/
def tsFlush (wf : List Char → Bool) (cur : List Char) : List (List Char) :=
  if wf cur then tokenizeWord cur else []

/-- Loop of `TokenizeString`: split the input on `wordDelimiters`. -/
def tsAux (wf : List Char → Bool) : List Char → List Char → List (List Char)
  | cur, [] => tsFlush wf cur
  | cur, r :: rest =>
    if wordDelimiters.contains r then tsFlush wf cur ++ tsAux wf [] rest
    else tsAux wf (cur ++ [r]) rest

/-- Go `TokenizeString` at rune level.  A `none` filter means "accept all"
(the Go code substitutes a constantly-true function for `nil`). -/
def tokenizeChars (s : List Char) (wordFilter : Option (List Char → Bool)) :
    List (List Char) :=
  tsAux (wordFilter.getD (fun _ => true)) [] s

/-- Go `TokenizeString` on Lean strings (Go iterates the string's runes;
`String.toList` is that rune sequence). -/
def TokenizeString (s : String) (wordFilter : Option (String → Bool)) :
    List String :=
  (tokenizeChars s.toList (wordFilter.map (fun f cs => f (String.mk cs)))).map
    String.mk

example : TokenizeString "JSONData" none = ["json", "data"] := by decide
example : TokenizeString "NumCPU" none = ["num", "cpu"] := by decide
example : TokenizeString "snake_case-word" none = ["snake", "case", "word"] := by
  decide

/- ===== TokenizeFile (part_010, first snapshot) =====

`TokenizeFile` opens the file and repeatedly calls
`reader.ReadString('\n')`, which returns the bytes up to and including the
next newline, or the remaining bytes together with `io.EOF` when no
newline is left.  On `io.EOF` the loop `break`s *before* tokenizing, so a
final line that is not newline-terminated is discarded.  The model takes
the file's content as the rune list the reader would produce. -/

/-- Content-level model of `TokenizeFile`'s read loop: tokenize each
newline-terminated line in order; drop a trailing unterminated line. -/
def tokenizeFileContent (wf : Option (List Char → Bool))
    (content : List Char) : List (List Char) :=
  if _hne : (content.dropWhile (fun c => c != '\n')).isEmpty then []
  else
    tokenizeChars (content.takeWhile (fun c => c != '\n') ++ ['\n']) wf ++
      tokenizeFileContent wf (content.dropWhile (fun c => c != '\n')).tail
termination_by content.length
decreasing_by
  have hle : (content.dropWhile (fun c => c != '\n')).length ≤ content.length :=
    (List.dropWhile_suffix _).sublist.length_le
  have hlen : (content.dropWhile (fun c => c != '\n')).length ≠ 0 := by
    intro h0
    rw [List.length_eq_zero] at h0
    rw [h0] at _hne
    simp at _hne
  rw [List.length_tail]
  omega

/- ===== pkg/random/lazy/lazy.go ===== -/

/-- Loop of `lazy.Sample`: `i` is the 0-based stream index, `acc` the
reservoir.  `g i % (i+1)` models `j := rand.IntN(i+1)` (a value in
`[0, i]`; any such value arises from some oracle `g`). -/
def sampleAux (g : Nat → Nat) (k : Nat) :
    List α → Nat → List α → List α
  | [], _, acc => acc
  | x :: xs, i, acc =>
    if i < k then sampleAux g k xs (i + 1) (acc ++ [x])
    else
      let j := g i % (i + 1)
      sampleAux g k xs (i + 1) (if j < k then acc.set j x else acc)

/-- Go `lazy.Sample(iter, k)`: reservoir sampling with randomness oracle `g`. -/
def Sample (g : Nat → Nat) (stream : List α) (k : Nat) : List α :=
  sampleAux g k stream 0 []

/- ===== pkg/random/random.go ===== -/

/-- One Fisher–Yates swap `s[i], s[j] = s[j], s[i]`; in `Shuffle` both
indices are always in bounds, the fallback branch is never reached there. -/
def swapAt (l : List α) (i j : Nat) : List α :=
  match l[i]?, l[j]? with
  | some a, some b => (l.set i b).set j a
  | _, _ => l

/-- The countdown loop of `Shuffle`: `for i := len(s)-1; i > 0; i--`,
with `j := rand.IntN(i+1)` modelled as `g i % (i+1)`. -/
def fyLoop (g : Nat → Nat) : List α → Nat → List α
  | s, 0 => s
  | s, Nat.succ m => fyLoop g (swapAt s (m + 1) (g (m + 1) % (m + 2))) m

/-- Go `random.Shuffle(slice)`: copies the slice (the model's input is never
mutated) and runs Fisher–Yates over the copy. -/
def Shuffle (g : Nat → Nat) (slice : List α) : List α :=
  fyLoop g slice (slice.length - 1)

example : Sample (fun _ => 0) [10, 20, 30] 5 = [10, 20, 30] := by decide
example : (Shuffle (fun _ => 0) [1, 2, 3]).length = 3 := by decide

/- ===== generatePrompt (part_019 lines 318-355) ===== -/

/-- The greedy packing loop of `generatePrompt`: walk the shuffled tokens,
keeping a running `promptLen`; for `i > 0` count the separating space
before the token's own rune length; stop as soon as `promptLen > maxLen`.
`maxLen`/`promptLen` are Go `int`s, modelled as `Int`. -/
def packTokens (maxLen : Int) : List String → Int → Nat → List String
  | [], _, _ => []
  | t :: rest, promptLen, i =>
    let pl1 : Int := if 0 < i then promptLen + 1 else promptLen
    let pl2 : Int := pl1 + (t.length : Int)
    if maxLen < pl2 then []
    else t :: packTokens maxLen rest pl2 (i + 1)

/-- Go `strings.Join(tokens, " ")`. -/
def joinSpace : List String → String
  | [] => ""
  | [t] => t
  | t :: rest => t ++ " " ++ joinSpace rest

/-- Go `generatePrompt` after the reservoir sample and shuffle have produced
`shuffled`: pack greedily and join with single spaces. -/
def generatePromptFrom (shuffled : List String) (maxLen : Int) : String :=
  joinSpace (packTokens maxLen shuffled 0 0)

/-- The sampling-and-assembly pipeline of `generatePrompt`.  `k` stands for
`maxWordsNeeded = int(math.Round(float64(maxLen+1)/float64(minTokenLen+1)))`,
whose float64 evaluation is not modelled (see the notes on claim C8); the
length bound below holds for every `k`.  `g1`/`g2` are the randomness
oracles of the reservoir sample and the shuffle. -/
def generatePromptPipeline (g1 g2 : Nat → Nat) (stream : List String)
    (k : Nat) (maxLen : Int) : String :=
  generatePromptFrom (Shuffle g2 (Sample g1 stream k)) maxLen

/- ===== internal/data (data.go / part_021): store model =====

`File` and `Token` rows keyed by `path` resp. `(path, value)`.  Go
`time.Time` is modelled by its seconds/nanoseconds pair; `Time.Unix()`
is the seconds component. -/

/-- A `time.Time` instant: Unix seconds plus sub-second nanoseconds. -/
structure MTime where
  sec : Int
  nsec : Int
deriving DecidableEq, Repr

/-- A `data.File` row: `path` (primary key), `size`, `mtime`. -/
structure DFile where
  path : String
  size : Int
  mtime : MTime
deriving DecidableEq, Repr

/-- A `data.Token` row: composite primary key `(path, value)`. -/
structure DToken where
  path : String
  value : String
deriving DecidableEq, Repr

/-- Go `File.VersionEquals`: same `Path`, same `Mtime.Unix()` (seconds only),
same `Size`. -/
def versionEquals (f other : DFile) : Bool :=
  f.path == other.path && f.mtime.sec == other.mtime.sec &&
    f.size == other.size

/-- In-memory model of one directory's token store. -/
structure Store where
  files : List DFile
  tokens : List DToken
deriving DecidableEq, Repr

/-- Primary-key upsert of one `File` row (`OnConflict: UpdateAll`). -/
def upsertFile (s : Store) (f : DFile) : Store :=
  if s.files.any (fun x => x.path == f.path) then
    { s with files := s.files.map (fun x => if x.path == f.path then f else x) }
  else { s with files := s.files ++ [f] }

/-- Go `data.UpsertFiles`. -/
def upsertFiles (s : Store) (fs : List DFile) : Store :=
  fs.foldl upsertFile s

/-- Primary-key upsert of one `Token` row. -/
def upsertToken (s : Store) (t : DToken) : Store :=
  if s.tokens.any (fun x => x.path == t.path && x.value == t.value) then
    { s with tokens := s.tokens.map fun x =>
        if x.path == t.path && x.value == t.value then t else x }
  else { s with tokens := s.tokens ++ [t] }

/-- Go `data.UpsertTokens`. -/
def upsertTokens (s : Store) (ts : List DToken) : Store :=
  ts.foldl upsertToken s

/-- Go `data.DeleteTokensOfFile`: drop all `Token` rows of `path`. -/
def deleteTokensOfFile (s : Store) (path : String) : Store :=
  { s with tokens := s.tokens.filter (fun t => t.path != path) }

/-- Go `data.DeleteFile(file, cascade)`: drop the `File` row; with `cascade`,
also its `Token` rows. -/
def deleteFile (s : Store) (path : String) (cascade : Bool) : Store :=
  let s := { s with files := s.files.filter (fun f => f.path != path) }
  if cascade then deleteTokensOfFile s path else s

/- ===== internal/domain (part_019, errors from part_016) ===== -/

/-- The typed errors declared in the domain package. -/
inductive DomainError where
  | invalidDirPath
  | fileOperation
  | textProcessing
  | emptyDir
  | tooManyErrors
  | noTokensFound
deriving DecidableEq, Repr

/-- Go `FileStatus` (`iota` order: the Go zero value is `Unchanged`). -/
inductive FileStatus where
  | unchanged
  | changed
  | new
  | ineligible
deriving DecidableEq, Repr

/-- Domain constants. -/
def minTokenLen : Nat := 2
def maxTokenLen : Nat := 12
def maxWordLen : Nat := 24
def tokenBufferSize : Nat := 10000

/-- Go `isTokenEligible`: `minTokenLen < len(runes) && len(runes) < maxTokenLen`. -/
def isTokenEligible (token : List Char) : Bool :=
  minTokenLen < token.length && token.length < maxTokenLen

/-- Go `isWordEligible`: `len(runes) < maxWordLen`. -/
def isWordEligible (word : List Char) : Bool :=
  word.length < maxWordLen

/-- Filesystem oracle: results of the I/O the indexer performs per path.
`Except Unit` is "value or I/O error".  `tokenizeFile` is the value of
`tokenizer.TokenizeFile(path, isWordEligible)` for the file's current
content. -/
structure Fs where
  isFileEligible : String → Except Unit Bool
  size : String → Except Unit Int
  mtime : String → Except Unit MTime
  tokenizeFile : String → Except Unit (List (List Char))

/-- Go `FileProcessingResult`; the defaults are the Go zero values of the
fields not set at a `return` site. -/
structure FileProcessingResult where
  file : DFile := { path := "", size := 0, mtime := { sec := 0, nsec := 0 } }
  status : FileStatus := .unchanged
  tokens : List DToken := []
  err : Option DomainError := none
deriving Repr

/-- The first-occurrence deduplication loop of `getUniqueTokensOfFile`:
keep each eligible token value once, in order of first appearance. -/
def uniqueEligibleTokens (path : String) :
    List (List Char) → List (List Char) → List DToken
  | _, [] => []
  | seen, tok :: rest =>
    if isTokenEligible tok && !seen.contains tok then
      { path := path, value := String.mk tok } ::
        uniqueEligibleTokens path (tok :: seen) rest
    else uniqueEligibleTokens path seen rest

/-- Go `getUniqueTokensOfFile`: tokenize, then reduce to the file's unique
eligible tokens; tokenization failure becomes `ErrTextProcessing`. -/
def getUniqueTokensOfFile (fs : Fs) (path : String) :
    Except DomainError (List DToken) :=
  match fs.tokenizeFile path with
  | .error _ => .error .textProcessing
  | .ok allTokens => .ok (uniqueEligibleTokens path [] allTokens)

/-- Go `processFile(path, dbFileLookup)` (part_019 lines 263-316). -/
def processFile (fs : Fs) (path : String)
    (dbFileLookup : String → Option DFile) : FileProcessingResult :=
  match fs.isFileEligible path with
  | .error _ => { err := some .fileOperation }
  | .ok false =>
    { file := { path := path, size := 0, mtime := { sec := 0, nsec := 0 } },
      status := .ineligible }
  | .ok true =>
    match fs.size path with
    | .error _ => { err := some .fileOperation }
    | .ok size =>
      match fs.mtime path with
      | .error _ => { err := some .fileOperation }
      | .ok mtime =>
        let file : DFile := { path := path, size := size, mtime := mtime }
        let fileStatus : FileStatus :=
          match dbFileLookup path with
          | some dbFile =>
            if versionEquals file dbFile then .unchanged else .changed
          | none => .new
        if fileStatus = .unchanged then { file := file, status := fileStatus }
        else
          match getUniqueTokensOfFile fs path with
          | .error e => { err := some e }
          | .ok toks =>
            { file := file, tokens := toks, status := fileStatus }

/-- Consumer-side state of `tokenizeDirectory`: the three mutation queues,
the "previously indexed, not yet seen again" lookup, and the store. -/
structure IndexState where
  changedFiles : List DFile
  newFiles : List DFile
  tokens : List DToken
  removedLookup : List DFile
  store : Store
deriving Repr

/-- The `flushTokens` closure: delete old tokens of changed files, upsert
changed then new file rows, and — only when the token buffer is non-empty —
upsert the buffered tokens and clear all three queues.  (The early return
on an empty buffer leaves `changedFiles`/`newFiles` uncleared, exactly as
in the source.) -/
def flushTokens (st : IndexState) : IndexState :=
  let store := st.changedFiles.foldl
    (fun s f => deleteTokensOfFile s f.path) st.store
  let store := upsertFiles store st.changedFiles
  let store := upsertFiles store st.newFiles
  if st.tokens.isEmpty then { st with store := store }
  else
    { changedFiles := [], newFiles := [], tokens := [],
      removedLookup := st.removedLookup,
      store := upsertTokens store st.tokens }

/-- One iteration of the `for _, path := range paths` loop of
`tokenizeDirectory` (part_019 lines 150-187). -/
def consumeStep (fs : Fs) (dbFileLookup : String → Option DFile)
    (st : IndexState) (path : String) : Except DomainError IndexState :=
  let result := processFile fs path dbFileLookup
  match result.err with
  | some e => .error e
  | none =>
    let st := { st with
      removedLookup := st.removedLookup.filter (fun f => f.path != path) }
    match result.status with
    | .ineligible => .ok st
    | .unchanged => .ok st
    | .changed =>
      let st := { st with changedFiles := st.changedFiles ++ [result.file],
                          tokens := st.tokens ++ result.tokens }
      .ok (if st.tokens.length > tokenBufferSize then flushTokens st else st)
    | .new =>
      let st := { st with newFiles := st.newFiles ++ [result.file],
                          tokens := st.tokens ++ result.tokens }
      .ok (if st.tokens.length > tokenBufferSize then flushTokens st else st)

/-- The path loop of `tokenizeDirectory`. -/
def runPaths (fs : Fs) (dbFileLookup : String → Option DFile) :
    List String → IndexState → Except DomainError IndexState
  | [], st => .ok st
  | p :: rest, st =>
    match consumeStep fs dbFileLookup st p with
    | .error e => .error e
    | .ok st' => runPaths fs dbFileLookup rest st'

/-- Go `tokenizeDirectory` (part_019 lines 91-204) given the enumerated
`paths`: build the prior-fingerprint lookup from the store, consume every
path, flush the remaining buffers, then cascade-delete every path still in
the removal lookup.  Store reads/writes are in-memory and do not fail. -/
def tokenizeDirectory (fs : Fs) (paths : List String) (store0 : Store) :
    Except DomainError Store :=
  let dbFileLookup := fun p => store0.files.find? (fun f => f.path == p)
  let st0 : IndexState :=
    { changedFiles := [], newFiles := [], tokens := [],
      removedLookup := store0.files, store := store0 }
  match runPaths fs dbFileLookup paths st0 with
  | .error e => .error e
  | .ok st =>
    let st := flushTokens st
    .ok (st.removedLookup.foldl (fun s f => deleteFile s f.path true) st.store)

/-- Modelled from the spec: the failure policy of the indexing entry point
is that "zero enumerated paths is reported as a distinct 'empty directory'
condition".  The revision of `tokenizeDirectory` that performs this check
is not among the source snapshots (only the `ErrEmptyDir` declaration in
part_016 is); the check is therefore taken from the spec's words and
placed in front of the embedded pass. -/
def indexDirectoryChecked (fs : Fs) (paths : List String) (store0 : Store) :
    Except DomainError Store :=
  if paths.isEmpty then .error .emptyDir
  else tokenizeDirectory fs paths store0

/-- Modelled from the spec: the sampling-time "corpus produced no usable
tokens" condition, "which can only be discovered later, at sampling time,
and is reported separately" (`ErrNoTokensFound` in part_016; the raising
site is not among the source snapshots).  `sampled` is the reservoir
sample drawn from the store's distinct-token stream. -/
def promptChecked (sampled : List String) (g2 : Nat → Nat) (maxLen : Int) :
    Except DomainError String :=
  if sampled.isEmpty then .error .noTokensFound
  else .ok (generatePromptFrom (Shuffle g2 sampled) maxLen)

/- ===== Theorems ===== -/

/- Helper lemmas for the Fisher–Yates permutation property. -/

/-- Replacing position `k` and re-heading the list with the old occupant is
a permutation. -/
theorem cons_set_perm : ∀ (xs : List α) (k : Nat) (x : α) (h : k < xs.length),
    List.Perm (xs[k] :: xs.set k x) (x :: xs)
  | y :: ys, 0, x, _ => by
    simpa using List.Perm.swap x y ys
  | y :: ys, k + 1, x, h => by
    have hk : k < ys.length := by simpa using h
    have ih := cons_set_perm ys k x hk
    have h1 : List.Perm (ys[k] :: y :: ys.set k x) (y :: ys[k] :: ys.set k x) :=
      List.Perm.swap y ys[k] _
    have h2 : List.Perm (y :: ys[k] :: ys.set k x) (y :: x :: ys) := ih.cons y
    have h3 : List.Perm (y :: x :: ys) (x :: y :: ys) := List.Perm.swap x y ys
    simpa using (h1.trans h2).trans h3

/-- Exchanging the entries at two in-bounds positions is a permutation. -/
theorem set_set_perm : ∀ (l : List α) (i j : Nat)
    (hi : i < l.length) (hj : j < l.length),
    List.Perm ((l.set i l[j]).set j l[i]) l
  | y :: ys, 0, 0, _, _ => by simp
  | y :: ys, 0, j + 1, hi, hj => by
    have hj' : j < ys.length := by simpa using hj
    simpa using cons_set_perm ys j y hj'
  | y :: ys, i + 1, 0, hi, hj => by
    have hi' : i < ys.length := by simpa using hi
    simpa using cons_set_perm ys i y hi'
  | y :: ys, i + 1, j + 1, hi, hj => by
    have hi' : i < ys.length := by simpa using hi
    have hj' : j < ys.length := by simpa using hj
    simpa using (set_set_perm ys i j hi' hj').cons y

/-- Swapping via `swapAt` never changes the multiset of elements. -/
theorem swapAt_perm (l : List α) (i j : Nat) : List.Perm (swapAt l i j) l := by
  unfold swapAt
  cases hi : l[i]? with
  | none => exact List.Perm.refl l
  | some a =>
    cases hj : l[j]? with
    | none => exact List.Perm.refl l
    | some b =>
      obtain ⟨hil, ha⟩ := List.getElem?_eq_some.mp hi
      obtain ⟨hjl, hb⟩ := List.getElem?_eq_some.mp hj
      subst ha
      subst hb
      exact set_set_perm l i j hil hjl

/-- Each countdown step of the shuffle preserves the multiset. -/
theorem fyLoop_perm (g : Nat → Nat) :
    ∀ (n : Nat) (s : List α), List.Perm (fyLoop g s n) s
  | 0, s => List.Perm.refl s
  | Nat.succ m, s =>
    (fyLoop_perm g m _).trans (swapAt_perm s (m + 1) (g (m + 1) % (m + 2)))

/-- C10.  `random.Shuffle` returns a permutation of its input: the output
has the same length and the same multiset of elements, for every input
slice and every outcome of the `rand.IntN` draws (oracle `g`).  The Go
function copies the slice before swapping, so the input itself is left
unmodified — in this pure model the input list is immutable by
construction. -/
theorem shuffle_perm (g : Nat → Nat) (slice : List α) :
    List.Perm (Shuffle g slice) slice :=
  fyLoop_perm g (slice.length - 1) slice

/- Helper lemmas for the reservoir sample. -/

/-- Length invariant of the sampling loop. -/
theorem sampleAux_length (g : Nat → Nat) (k : Nat) :
    ∀ (xs : List α) (i : Nat) (acc : List α), acc.length = min i k →
      (sampleAux g k xs i acc).length = min (i + xs.length) k
  | [], i, acc, h => by simpa using h
  | x :: xs, i, acc, h => by
    by_cases hik : i < k
    · have h' : (acc ++ [x]).length = min (i + 1) k := by
        rw [List.length_append, h]
        simp only [List.length_cons, List.length_nil]
        omega
      have ih := sampleAux_length g k xs (i + 1) (acc ++ [x]) h'
      simp only [sampleAux, if_pos hik, List.length_cons]
      rw [ih]
      omega
    · have h' : (if g i % (i + 1) < k then acc.set (g i % (i + 1)) x
          else acc).length = min (i + 1) k := by
        by_cases hj : g i % (i + 1) < k
        · rw [if_pos hj, List.length_set, h]
          omega
        · rw [if_neg hj, h]
          omega
      have ih := sampleAux_length g k xs (i + 1) _ h'
      simp only [sampleAux, if_neg hik, List.length_cons]
      rw [ih]
      omega

/-- Every element of the loop's output comes from the accumulator or the
remaining stream. -/
theorem sampleAux_mem (g : Nat → Nat) (k : Nat) :
    ∀ (xs : List α) (i : Nat) (acc : List α) (y : α),
      y ∈ sampleAux g k xs i acc → y ∈ acc ∨ y ∈ xs
  | [], _, _, _, h => Or.inl h
  | x :: xs, i, acc, y, h => by
    simp only [sampleAux] at h
    by_cases hik : i < k
    · rw [if_pos hik] at h
      rcases sampleAux_mem g k xs (i + 1) (acc ++ [x]) y h with h' | h'
      · rcases List.mem_append.mp h' with h'' | h''
        · exact Or.inl h''
        · have hyx : y = x := by simpa using h''
          exact Or.inr (hyx ▸ List.mem_cons_self x xs)
      · exact Or.inr (List.mem_cons_of_mem x h')
    · rw [if_neg hik] at h
      rcases sampleAux_mem g k xs (i + 1) _ y h with h' | h'
      · by_cases hj : g i % (i + 1) < k
        · rw [if_pos hj] at h'
          rcases List.mem_or_eq_of_mem_set h' with h'' | h''
          · exact Or.inl h''
          · exact Or.inr (h'' ▸ List.mem_cons_self x xs)
        · rw [if_neg hj] at h'
          exact Or.inl h'
      · exact Or.inr (List.mem_cons_of_mem x h')

/-- While the stream still fits in the reservoir the loop only appends. -/
theorem sampleAux_all (g : Nat → Nat) (k : Nat) :
    ∀ (xs : List α) (i : Nat) (acc : List α), i + xs.length ≤ k →
      sampleAux g k xs i acc = acc ++ xs
  | [], _, acc, _ => by simp [sampleAux]
  | x :: xs, i, acc, h => by
    have hik : i < k := by simp at h; omega
    have h' : (i + 1) + xs.length ≤ k := by simp at h; omega
    simp only [sampleAux, if_pos hik]
    rw [sampleAux_all g k xs (i + 1) (acc ++ [x]) h']
    simp

/-- C6.  `lazy.Sample(stream, k)` returns exactly `min k n` elements for a
stream of length `n` (for every outcome of the `rand.IntN` draws, oracle
`g`); every returned element is an element of the stream; and when the
whole stream fits (`n ≤ k`) the result is the entire stream in stream
order. -/
theorem sample_spec (g : Nat → Nat) (stream : List α) (k : Nat) :
    (Sample g stream k).length = min k stream.length ∧
    (∀ y ∈ Sample g stream k, y ∈ stream) ∧
    (stream.length ≤ k → Sample g stream k = stream) := by
  refine ⟨?_, ?_, ?_⟩
  · have := sampleAux_length g k stream 0 [] (by simp)
    simpa [Sample, Nat.min_comm] using this
  · intro y hy
    rcases sampleAux_mem g k stream 0 [] y hy with h | h
    · simp at h
    · exact h
  · intro hn
    have := sampleAux_all g k stream 0 [] (by simpa using hn)
    simpa [Sample] using this

/-- Witness for `sample_spec`: on the concrete stream `[1, 2, 3]` with
`k = 5` the whole stream is returned in order. -/
theorem sample_spec_witness :
    [1, 2, 3].length ≤ 5 ∧ Sample (fun _ => 0) [1, 2, 3] 5 = [1, 2, 3] :=
  ⟨by decide, (sample_spec (fun _ => 0) [1, 2, 3] 5).2.2 (by decide)⟩

/- Helper lemmas for the greedy packing bound. -/

/-- The separator contribution the packing loop counts before a token at
index `i`. -/
def sepWeight (i : Nat) : Int := if 0 < i then 1 else 0

/-- Total length contribution of a packed tail starting at index `i`:
separator plus token rune length, summed. -/
def packWeight : Nat → List String → Int
  | _, [] => 0
  | i, t :: rest => sepWeight i + (t.length : Int) + packWeight (i + 1) rest

/-- The packing loop never lets the running length pass `maxLen`. -/
theorem packTokens_le (maxLen : Int) :
    ∀ (ts : List String) (pl : Int) (i : Nat), pl ≤ maxLen →
      pl + packWeight i (packTokens maxLen ts pl i) ≤ maxLen
  | [], pl, i, h => by simpa [packTokens, packWeight] using h
  | t :: rest, pl, i, h => by
    simp only [packTokens]
    by_cases hi : 0 < i
    · rw [if_pos hi]
      by_cases hlt : maxLen < pl + 1 + (t.length : Int)
      · rw [if_pos hlt]
        simpa [packWeight] using h
      · rw [if_neg hlt]
        have h2 : pl + 1 + (t.length : Int) ≤ maxLen := by omega
        have ih := packTokens_le maxLen rest (pl + 1 + (t.length : Int))
          (i + 1) h2
        simp only [packWeight, sepWeight, if_pos hi]
        omega
    · rw [if_neg hi]
      by_cases hlt : maxLen < pl + (t.length : Int)
      · rw [if_pos hlt]
        simpa [packWeight] using h
      · rw [if_neg hlt]
        have h2 : pl + (t.length : Int) ≤ maxLen := by omega
        have ih := packTokens_le maxLen rest (pl + (t.length : Int))
          (i + 1) h2
        simp only [packWeight, sepWeight, if_neg hi]
        omega

/-- For positions past the first, `packWeight` is the joined length plus
one leading separator. -/
theorem packWeight_pos :
    ∀ (out : List String) (i : Nat), 1 ≤ i →
      packWeight i out =
        if out.isEmpty then 0 else ((joinSpace out).length : Int) + 1
  | [], _, _ => rfl
  | [t], i, hi => by
    have h0 : (0 : Nat) < i := hi
    simp only [packWeight, sepWeight, if_pos h0, List.isEmpty_cons, joinSpace,
      Bool.false_eq_true, if_false]
    omega
  | t :: r :: rs, i, hi => by
    have h0 : (0 : Nat) < i := hi
    have ih := packWeight_pos (r :: rs) (i + 1) (by omega)
    have hlen : ((joinSpace (t :: r :: rs)).length : Int) =
        (t.length : Int) + 1 + ((joinSpace (r :: rs)).length : Int) := by
      have hj : joinSpace (t :: r :: rs) = t ++ " " ++ joinSpace (r :: rs) :=
        rfl
      rw [hj, String.length_append, String.length_append]
      have hsp : (" " : String).length = 1 := rfl
      rw [hsp]
      push_cast
      ring
    rw [packWeight, ih]
    simp only [sepWeight, if_pos h0, List.isEmpty_cons, Bool.false_eq_true,
      if_false]
    omega

/-- At position 0, `packWeight` is exactly the length of the joined
string. -/
theorem packWeight_zero :
    ∀ out : List String, packWeight 0 out = ((joinSpace out).length : Int)
  | [] => rfl
  | [t] => by simp [packWeight, sepWeight, joinSpace]
  | t :: r :: rs => by
    have h := packWeight_pos (r :: rs) 1 (by omega)
    have hlen : ((joinSpace (t :: r :: rs)).length : Int) =
        (t.length : Int) + 1 + ((joinSpace (r :: rs)).length : Int) := by
      have hj : joinSpace (t :: r :: rs) = t ++ " " ++ joinSpace (r :: rs) :=
        rfl
      rw [hj, String.length_append, String.length_append]
      have hsp : (" " : String).length = 1 := rfl
      rw [hsp]
      push_cast
      ring
    rw [packWeight, h]
    simp only [sepWeight, if_neg (by omega : ¬ (0 : Nat) < 0),
      List.isEmpty_cons, Bool.false_eq_true, if_false]
    omega

/-- C1.  For every directory (modelled by an arbitrary distinct-token
stream and arbitrary randomness oracles `g1`, `g2`, covering every
reservoir sample and shuffle outcome, and every candidate count `k`) and
every `maxLen ≥ 0`, the prompt built by `generatePrompt` has rune length
at most `maxLen`, and it is exactly the accepted tokens joined by single
spaces — the packing loop having counted one separating space before each
token after the first. -/
theorem prompt_length_bound (g1 g2 : Nat → Nat) (stream : List String)
    (k : Nat) (maxLen : Int) (h : 0 ≤ maxLen) :
    ((generatePromptPipeline g1 g2 stream k maxLen).length : Int) ≤ maxLen ∧
    generatePromptPipeline g1 g2 stream k maxLen =
      joinSpace (packTokens maxLen (Shuffle g2 (Sample g1 stream k)) 0 0) := by
  refine ⟨?_, rfl⟩
  have h2 := packTokens_le maxLen (Shuffle g2 (Sample g1 stream k)) 0 0 h
  rw [packWeight_zero] at h2
  simpa [generatePromptPipeline, generatePromptFrom] using h2

/-- Witness for `prompt_length_bound` at a concrete stream and
`maxLen = 8`. -/
theorem prompt_length_bound_witness :
    (0 : Int) ≤ 8 ∧
      ((generatePromptPipeline (fun _ => 0) (fun _ => 0) ["hello", "world"]
          2 8).length : Int) ≤ 8 :=
  ⟨by decide,
    (prompt_length_bound (fun _ => 0) (fun _ => 0) ["hello", "world"] 2 8
      (by decide)).1⟩

/- Helper lemmas for the `TokenizeFile` read-loop model. -/

/-- Applying `dropWhile` to a list that satisfies the predicate throughout is
empty. -/
theorem dropWhile_nil_of_all {p : Char → Bool} :
    ∀ l : List Char, (∀ c ∈ l, p c = true) → l.dropWhile p = []
  | [], _ => rfl
  | c :: l, hall => by
    have hc := hall c (List.mem_cons_self c l)
    rw [List.dropWhile_cons, if_pos hc]
    exact dropWhile_nil_of_all l fun d hd => hall d (List.mem_cons_of_mem c hd)

/-- The head of a non-empty `dropWhile` fails the predicate. -/
theorem dropWhile_head_false {p : Char → Bool} :
    ∀ (l : List Char) (c : Char) (r : List Char),
      l.dropWhile p = c :: r → p c = false
  | [], c, r, h => by simp [List.dropWhile] at h
  | x :: l, c, r, h => by
    by_cases hx : p x
    · rw [List.dropWhile_cons, if_pos hx] at h
      exact dropWhile_head_false l c r h
    · rw [List.dropWhile_cons, if_neg hx] at h
      cases h
      simpa using hx

/-- Splitting with `takeWhile`/`dropWhile` across an all-satisfying prefix followed by a
failing element. -/
theorem takeWhile_dropWhile_append {p : Char → Bool} :
    ∀ (l : List Char) (x : Char) (r : List Char),
      (∀ c ∈ l, p c = true) → p x = false →
      (l ++ x :: r).takeWhile p = l ∧ (l ++ x :: r).dropWhile p = x :: r
  | [], x, r, _, hx => by
    constructor
    · rw [List.nil_append, List.takeWhile_cons, if_neg (by simp [hx])]
    · rw [List.nil_append, List.dropWhile_cons, if_neg (by simp [hx])]
  | c :: l, x, r, hall, hx => by
    have hc : p c = true := hall c (List.mem_cons_self c l)
    have ih := takeWhile_dropWhile_append l x r
      (fun d hd => hall d (List.mem_cons_of_mem c hd)) hx
    constructor
    · rw [List.cons_append, List.takeWhile_cons, if_pos hc, ih.1]
    · rw [List.cons_append, List.dropWhile_cons, if_pos hc, ih.2]

/-- The read loop tokenizes a complete (newline-terminated) line and
continues on the remaining content. -/
theorem tfc_complete_line (wf : Option (List Char → Bool))
    (line rest : List Char) (hline : ∀ c ∈ line, (c != '\n') = true) :
    tokenizeFileContent wf (line ++ '\n' :: rest) =
      tokenizeChars (line ++ ['\n']) wf ++ tokenizeFileContent wf rest := by
  have hx : (('\n' : Char) != '\n') = false := by decide
  obtain ⟨ht, hd⟩ := takeWhile_dropWhile_append line '\n' rest hline hx
  rw [tokenizeFileContent, ht, hd]
  simp

/-- Content after the last newline never contributes tokens: appending a
newline-free tail does not change the result of the read loop. -/
theorem tfc_ignores_unterminated (wf : Option (List Char → Bool))
    (pre tail : List Char) (htail : ∀ c ∈ tail, c ≠ '\n') :
    tokenizeFileContent wf (pre ++ tail) = tokenizeFileContent wf pre := by
  cases hdp : pre.dropWhile (fun c => c != '\n') with
  | nil =>
    have hpre : ∀ c ∈ pre, (c != '\n') = true :=
      List.dropWhile_eq_nil_iff.mp hdp
    have htail' : ∀ c ∈ tail, (c != '\n') = true := by
      intro c hc
      simpa using htail c hc
    have hall : ∀ c ∈ pre ++ tail, (c != '\n') = true := by
      intro c hc
      rcases List.mem_append.mp hc with h | h
      · exact hpre c h
      · exact htail' c h
    have hd1 : (pre ++ tail).dropWhile (fun c => c != '\n') = [] :=
      dropWhile_nil_of_all _ hall
    have L1 : tokenizeFileContent wf (pre ++ tail) = [] := by
      rw [tokenizeFileContent, hd1]
      simp
    have L2 : tokenizeFileContent wf pre = [] := by
      rw [tokenizeFileContent, hdp]
      simp
    rw [L1, L2]
  | cons c restPre =>
    have hcf : (c != '\n') = false := dropWhile_head_false pre c restPre hdp
    have hc : c = '\n' := by simpa using hcf
    obtain ⟨tk, htk, heq⟩ :
        ∃ tk, (∀ x ∈ tk, (x != '\n') = true) ∧ tk ++ c :: restPre = pre :=
      ⟨pre.takeWhile (fun x => x != '\n'),
        fun x hx => by
          have hpx := List.mem_takeWhile_imp hx
          exact hpx,
        by rw [← hdp]; exact List.takeWhile_append_dropWhile _ _⟩
    have hlt : restPre.length < pre.length := by
      rw [← heq]
      simp only [List.length_append, List.length_cons]
      omega
    subst hc
    rw [← heq]
    rw [List.append_assoc, List.cons_append]
    rw [tfc_complete_line wf tk (restPre ++ tail) htk,
      tfc_complete_line wf tk restPre htk]
    rw [tfc_ignores_unterminated wf restPre tail htail]
termination_by pre.length
decreasing_by
  exact hlt

/-- C9.  For a file whose content does not end in a newline,
`TokenizeFile` returns only the tokens of the newline-terminated lines:
the partially read final line is discarded at `io.EOF` without being
tokenized (first conjunct: a newline-free suffix never changes the
result), while every complete line is tokenized in order (second
conjunct). -/
theorem tokenizeFile_drops_unterminated (wf : Option (List Char → Bool))
    (pre tail line rest : List Char) :
    ((∀ c ∈ tail, c ≠ '\n') →
      tokenizeFileContent wf (pre ++ tail) = tokenizeFileContent wf pre) ∧
    ((∀ c ∈ line, c ≠ '\n') →
      tokenizeFileContent wf (line ++ '\n' :: rest) =
        tokenizeChars (line ++ ['\n']) wf ++ tokenizeFileContent wf rest) := by
  constructor
  · exact tfc_ignores_unterminated wf pre tail
  · intro h
    exact tfc_complete_line wf line rest fun c hc => by simpa using h c hc

/-- Witness for `tokenizeFile_drops_unterminated`: the unterminated final
line `world` of `hello\nworld` contributes nothing. -/
theorem tokenizeFile_drops_unterminated_witness :
    (∀ c ∈ "world".toList, c ≠ '\n') ∧
    tokenizeFileContent none ("hello\n".toList ++ "world".toList) =
      tokenizeFileContent none "hello\n".toList :=
  ⟨by decide,
    (tokenizeFile_drops_unterminated none "hello\n".toList "world".toList
      [] []).1 (by decide)⟩

/- Helper lemmas for the tokenizer output contract. -/

/-- Everything `lowerValidSubtokens` emits is the lowercasing of a valid
subtoken. -/
theorem mem_lowerValidSubtokens :
    ∀ (subs : List (List Char)) (t : List Char), t ∈ lowerValidSubtokens subs →
      ∃ sub, isTokenValid sub = true ∧ t = sub.map Char.toLower
  | [], t, h => absurd h (List.not_mem_nil t)
  | sub :: rest, t, h => by
    simp only [lowerValidSubtokens] at h
    by_cases hv : isTokenValid sub = true
    · rw [if_pos hv] at h
      rcases List.mem_cons.mp h with h1 | h1
      · exact ⟨sub, hv, h1⟩
      · exact mem_lowerValidSubtokens rest t h1
    · rw [if_neg hv] at h
      exact mem_lowerValidSubtokens rest t h

/-- Everything `tokenizeWord`'s flush emits is a lowercased valid
subtoken. -/
theorem mem_twFlush (cur t : List Char) (h : t ∈ twFlush cur) :
    ∃ sub, isTokenValid sub = true ∧ t = sub.map Char.toLower := by
  unfold twFlush at h
  split at h
  · exact mem_lowerValidSubtokens _ t h
  · cases h

/-- Everything the `tokenizeWord` loop emits is a lowercased valid
subtoken. -/
theorem mem_twAux :
    ∀ (w cur t : List Char), t ∈ twAux cur w →
      ∃ sub, isTokenValid sub = true ∧ t = sub.map Char.toLower
  | [], cur, t, h => mem_twFlush cur t h
  | ch :: w, cur, t, h => by
    simp only [twAux] at h
    by_cases hc : tokenDelimiters.contains ch = true
    · rw [if_pos hc] at h
      rcases List.mem_append.mp h with h1 | h1
      · exact mem_twFlush cur t h1
      · exact mem_twAux w [] t h1
    · rw [if_neg hc] at h
      exact mem_twAux w (cur ++ [ch]) t h

/-- Every token of the `TokenizeString` loop comes from `tokenizeWord` on
some word. -/
theorem mem_tsAux :
    ∀ (s cur t : List Char) (f : List Char → Bool), t ∈ tsAux f cur s →
      ∃ w, t ∈ tokenizeWord w
  | [], cur, t, f, h => by
    simp only [tsAux, tsFlush] at h
    split at h
    · exact ⟨cur, h⟩
    · cases h
  | r :: s, cur, t, f, h => by
    simp only [tsAux] at h
    by_cases hr : wordDelimiters.contains r = true
    · rw [if_pos hr] at h
      rcases List.mem_append.mp h with h1 | h1
      · simp only [tsFlush] at h1
        split at h1
        · exact ⟨cur, h1⟩
        · cases h1
      · exact mem_tsAux s [] t f h1
    · rw [if_neg hr] at h
      exact mem_tsAux s (cur ++ [r]) t f h

/-- Lowercasing a valid (all-ASCII-letter) token yields only lowercase
ASCII letters. -/
theorem toLower_valid_lower (sub : List Char) (hv : isTokenValid sub = true) :
    ∀ c ∈ sub.map Char.toLower, c ∈ lowerCaseRunes := by
  intro c hc
  rcases List.mem_map.mp hc with ⟨d, hd, rfl⟩
  have hdall : allRunes.contains d = true := by
    have := List.all_eq_true.mp hv d hd
    simpa using this
  have hdmem : d ∈ allRunes := by simpa using hdall
  have key : ∀ x ∈ allRunes, Char.toLower x ∈ lowerCaseRunes := by decide
  exact key d hdmem

/-- Splitting words at a space: the loop flushes at the delimiter, so the
output is the concatenation, in order. -/
theorem tsAux_append_space (f : List Char → Bool) :
    ∀ (s1 s2 cur : List Char),
      tsAux f cur (s1 ++ ' ' :: s2) = tsAux f cur s1 ++ tsAux f [] s2
  | [], s2, cur => by
    simp only [List.nil_append, tsAux]
    rw [if_pos (by decide : wordDelimiters.contains ' ' = true)]
  | r :: s1, s2, cur => by
    simp only [List.cons_append, tsAux, List.append_eq]
    by_cases hr : wordDelimiters.contains r = true
    · rw [if_pos hr, if_pos hr, tsAux_append_space f s1 s2 [],
        List.append_assoc]
    · rw [if_neg hr, if_neg hr, tsAux_append_space f s1 s2 (cur ++ [r])]

/-- No-delimiter words accumulate into a single flush. -/
theorem twAux_no_delims :
    ∀ (w cur : List Char), (∀ ch ∈ w, tokenDelimiters.contains ch = false) →
      twAux cur w = twFlush (cur ++ w)
  | [], cur, _ => by simp [twAux]
  | ch :: w, cur, hall => by
    have hch : tokenDelimiters.contains ch = false :=
      hall ch (List.mem_cons_self ch w)
    simp only [twAux, hch, Bool.false_eq_true, if_false]
    rw [twAux_no_delims w (cur ++ [ch])
      (fun d hd => hall d (List.mem_cons_of_mem ch hd))]
    simp [List.append_assoc]

/-- C7.  The tokenizer's output contract: (1) every token returned by
`TokenizeString` consists solely of lowercase ASCII letters; (2) a
candidate token (a delimiter-free word) containing any character that is
not an ASCII letter contributes no token at all — it is dropped entirely,
never truncated; (3) output order matches input order with duplicates
preserved (tokens of the part before a space precede those after it, and
a repeated word yields repeated tokens); (4) the empty input yields the
empty sequence — for every word filter. -/
theorem tokenizeString_output_contract :
    (∀ (s : List Char) (wf : Option (List Char → Bool)) (t : List Char),
        t ∈ tokenizeChars s wf → ∀ c ∈ t, c ∈ lowerCaseRunes) ∧
    (∀ w : List Char, (∀ ch ∈ w, tokenDelimiters.contains ch = false) →
        isTokenValid w = false → tokenizeWord w = []) ∧
    (∀ (wf : Option (List Char → Bool)) (s1 s2 : List Char),
        tokenizeChars (s1 ++ ' ' :: s2) wf =
          tokenizeChars s1 wf ++ tokenizeChars s2 wf) ∧
    TokenizeString "foo bar foo" none = ["foo", "bar", "foo"] ∧
    (∀ wf : Option (List Char → Bool), tokenizeChars [] wf = []) := by
  refine ⟨?_, ?_, ?_, by decide, ?_⟩
  · intro s wf t ht c hc
    obtain ⟨w, hw⟩ := mem_tsAux s [] t _ ht
    simp only [tokenizeWord] at hw
    obtain ⟨sub, hv, rfl⟩ := mem_twAux w [] t hw
    exact toLower_valid_lower sub hv c hc
  · intro w hall hinv
    rw [tokenizeWord, twAux_no_delims w [] hall]
    simp [twFlush, hinv]
  · intro wf s1 s2
    exact tsAux_append_space _ s1 s2 []
  · intro wf
    cases hwf : (wf.getD (fun _ => true)) [] <;>
      simp [tokenizeChars, tsAux, tsFlush, tokenizeWord, twAux, twFlush, hwf]

/-- Witness for `tokenizeString_output_contract`: the delimiter-free word
`abé` contains a non-ASCII character and yields no tokens. -/
theorem tokenizeString_output_contract_witness :
    (∀ ch ∈ ['a', 'b', 'é'], tokenDelimiters.contains ch = false) ∧
    isTokenValid ['a', 'b', 'é'] = false ∧
    tokenizeWord ['a', 'b', 'é'] = [] :=
  ⟨by decide, by decide,
    tokenizeString_output_contract.2.1 ['a', 'b', 'é'] (by decide) (by decide)⟩

/- Helper lemmas for the mixed-case split. -/

/-- With a non-empty current token, the first subtoken the split loop
emits extends that token. -/
theorem smc_first_extends :
    ∀ (input : List Char) (prev : Option Char) (cur : List Char), cur ≠ [] →
      ∃ ext restOut, smcAux prev cur input = (cur ++ ext) :: restOut
  | [], _, cur, hc => by
    refine ⟨[], [], ?_⟩
    simp [smcAux, smcFlush, hc]
  | r :: rest, prev, cur, hc => by
    simp only [smcAux]
    by_cases hf : (getRuneCase r == RuneCase.upper &&
        (prevIsLower prev || nextIsLower rest)) = true
    · rw [if_pos hf]
      have hfl : smcFlush cur = [cur] := by simp [smcFlush, hc]
      exact ⟨[], smcAux (some r) [r] rest, by rw [hfl]; simp⟩
    · rw [if_neg hf]
      obtain ⟨ext, restOut, heq⟩ :=
        smc_first_extends rest (some r) (cur ++ [r]) (by simp)
      exact ⟨[r] ++ ext, restOut, by rw [heq]; simp⟩

/-- The rune after an uppercase run that continues with another uppercase
rune is not lowercase. -/
theorem nextIsLower_upper_head (us : List Char) (un : Char) (tail : List Char)
    (hall : ∀ c ∈ us, getRuneCase c = RuneCase.upper)
    (hun : getRuneCase un = RuneCase.upper) :
    nextIsLower (us ++ un :: tail) = false := by
  cases us with
  | nil => simp [nextIsLower, hun]
  | cons w ws =>
    have hw := hall w (List.mem_cons_self w ws)
    simp [nextIsLower, hw]

/-- Walking an all-uppercase run: the loop flushes exactly at the last
uppercase rune before the lowercase one, emitting the accumulated token
plus the run's prefix, and continues with the last uppercase rune and the
lowercase rune joined. -/
theorem smc_upper_run :
    ∀ (us : List Char) (p : Char) (cur : List Char) (un l : Char)
      (rest : List Char),
      (∀ c ∈ us, getRuneCase c = RuneCase.upper) →
      getRuneCase p = RuneCase.upper → cur ≠ [] →
      getRuneCase un = RuneCase.upper → getRuneCase l = RuneCase.lower →
      ∃ ext restOut,
        smcAux (some p) cur (us ++ un :: l :: rest) =
          (cur ++ us) :: (un :: l :: ext) :: restOut
  | [], p, cur, un, l, rest, _, hp, hc, hun, hl => by
    have hcond : (getRuneCase un == RuneCase.upper &&
        (prevIsLower (some p) || nextIsLower (l :: rest))) = true := by
      simp [prevIsLower, nextIsLower, hp, hun, hl]
    simp only [List.nil_append, smcAux, hcond, if_true]
    have hcond2 : (getRuneCase l == RuneCase.upper &&
        (prevIsLower (some un) || nextIsLower rest)) = false := by
      simp [hl]
    simp only [smcAux, hcond2, Bool.false_eq_true, if_false]
    have hfl : smcFlush cur = [cur] := by simp [smcFlush, hc]
    obtain ⟨ext, restOut, heq⟩ :=
      smc_first_extends rest (some l) ([un] ++ [l]) (by simp)
    refine ⟨ext, restOut, ?_⟩
    rw [hfl, heq]
    simp
  | v :: us', p, cur, un, l, rest, hall, hp, hc, hun, hl => by
    have hv := hall v (List.mem_cons_self v us')
    have hus' : ∀ c ∈ us', getRuneCase c = RuneCase.upper :=
      fun c hcm => hall c (List.mem_cons_of_mem v hcm)
    have hnext : nextIsLower (us' ++ un :: l :: rest) = false :=
      nextIsLower_upper_head us' un (l :: rest) hus' hun
    have hcond : (getRuneCase v == RuneCase.upper &&
        (prevIsLower (some p) || nextIsLower (us' ++ un :: l :: rest)))
          = false := by
      simp [prevIsLower, hp, hnext]
    simp only [List.cons_append, smcAux, List.append_eq, hcond,
      Bool.false_eq_true, if_false]
    obtain ⟨ext, restOut, heq⟩ :=
      smc_upper_run us' v (cur ++ [v]) un l rest hus' hv (by simp) hun hl
    refine ⟨ext, restOut, ?_⟩
    rw [heq]
    simp

/-- C3.  The literal segmentation cases hold: `JSONData` → `json`, `data`;
`NumCPU` → `num`, `cpu`; `snake_case-word` → `snake`, `case`, `word`.  In
general, a raw token beginning with a run of at least two uppercase
letters followed by a lowercase letter is split so that all but the last
uppercase letter form one acronym subtoken, and the next subtoken starts
with that last uppercase letter and the lowercase letter (hypotheses are
stated via `getRuneCase`, which agrees with the Go case test on the ASCII
letters that validated tokens consist of). -/
theorem acronym_split :
    TokenizeString "JSONData" none = ["json", "data"] ∧
    TokenizeString "NumCPU" none = ["num", "cpu"] ∧
    TokenizeString "snake_case-word" none = ["snake", "case", "word"] ∧
    (∀ (u1 un l : Char) (us rest : List Char),
      getRuneCase u1 = RuneCase.upper →
      (∀ c ∈ us, getRuneCase c = RuneCase.upper) →
      getRuneCase un = RuneCase.upper → getRuneCase l = RuneCase.lower →
      ∃ ext restOut,
        splitMixedCaseToken (u1 :: (us ++ un :: l :: rest)) =
          (u1 :: us) :: (un :: l :: ext) :: restOut) := by
  refine ⟨by decide, by decide, by decide, ?_⟩
  intro u1 un l us rest hu1 hus hun hl
  have hnext : nextIsLower (us ++ un :: l :: rest) = false :=
    nextIsLower_upper_head us un (l :: rest) hus hun
  have hcond : (getRuneCase u1 == RuneCase.upper &&
      (prevIsLower none || nextIsLower (us ++ un :: l :: rest))) = false := by
    simp [prevIsLower, hnext]
  rw [splitMixedCaseToken]
  simp only [smcAux, hcond, Bool.false_eq_true, if_false]
  obtain ⟨ext, restOut, heq⟩ :=
    smc_upper_run us u1 ([] ++ [u1]) un l rest hus hu1 (by simp) hun hl
  exact ⟨ext, restOut, by simpa using heq⟩

/-- Witness for `acronym_split`: `XMLDa` splits into the acronym `XML`
and a subtoken starting `Da`. -/
theorem acronym_split_witness :
    ∃ ext restOut,
      splitMixedCaseToken ['X', 'M', 'L', 'D', 'a'] =
        ['X', 'M', 'L'] :: ('D' :: 'a' :: ext) :: restOut :=
  acronym_split.2.2.2 'X' 'D' 'a' ['M', 'L'] [] (by decide) (by decide)
    (by decide) (by decide)

/- Concrete filesystem oracles and stores for the indexer claims. -/

/-- A filesystem in which path `a` is an eligible file of size 10 whose
mtime is 100 s + 5 ns. -/
def fsSubsecond : Fs :=
  { isFileEligible := fun _ => .ok true,
    size := fun _ => .ok 10,
    mtime := fun _ => .ok { sec := 100, nsec := 5 },
    tokenizeFile := fun _ => .ok [] }

/-- The stored record for path `a`: same size, mtime 100 s + 0 ns. -/
def dbFileSubsecond : DFile :=
  { path := "a", size := 10, mtime := { sec := 100, nsec := 0 } }

/-- Prior-fingerprint lookup holding only `dbFileSubsecond`. -/
def dbLookupSubsecond : String → Option DFile :=
  fun p => if p = "a" then some dbFileSubsecond else none

/-- C2 counterexample.  The claim's "current mtime equals the stored
mtime" direction fails: path `a`'s current mtime (100 s + 5 ns) differs
from the stored mtime (100 s + 0 ns), yet `processFile` classifies the
path `Unchanged`, because `File.VersionEquals` compares `Mtime.Unix()` —
seconds only. -/
theorem processFile_subsecond_mtime_cex :
    (processFile fsSubsecond "a" dbLookupSubsecond).status =
      FileStatus.unchanged ∧
    (processFile fsSubsecond "a" dbLookupSubsecond).err = none ∧
    fsSubsecond.mtime "a" = .ok { sec := 100, nsec := 5 } ∧
    dbFileSubsecond.mtime ≠ { sec := 100, nsec := 5 } ∧
    fsSubsecond.size "a" = .ok 10 ∧ dbFileSubsecond.size = 10 := by
  refine ⟨by decide, by decide, rfl, by decide, rfl, rfl⟩

/-- C2 (amended).  For an enumerated path with a prior File record whose
eligibility and stat calls succeed, the indexer classifies the path
`Unchanged` (an error-free result with status `Unchanged`) iff the
current size equals the stored size and the current mtime equals the
stored mtime *at Unix-second granularity*; an `Unchanged` classification
carries no tokens, is independent of the file's content (the tokenization
oracle is never consulted), and the consumer step performs no store
mutation and no queueing for it — only the removal-lookup bookkeeping. -/
theorem processFile_unchanged_iff (fs : Fs) (path : String)
    (lookup : String → Option DFile) (dbFile : DFile) (size : Int)
    (mtime : MTime)
    (helig : fs.isFileEligible path = .ok true)
    (hsize : fs.size path = .ok size)
    (hmtime : fs.mtime path = .ok mtime)
    (hlook : lookup path = some dbFile)
    (hpath : dbFile.path = path) :
    (((processFile fs path lookup).err = none ∧
      (processFile fs path lookup).status = FileStatus.unchanged) ↔
      (size = dbFile.size ∧ mtime.sec = dbFile.mtime.sec)) ∧
    (((processFile fs path lookup).err = none ∧
      (processFile fs path lookup).status = FileStatus.unchanged) →
      (processFile fs path lookup).tokens = [] ∧
      (∀ tf', processFile { fs with tokenizeFile := tf' } path lookup =
        processFile fs path lookup) ∧
      (∀ st : IndexState, consumeStep fs lookup st path =
        .ok { st with removedLookup :=
          st.removedLookup.filter (fun f => f.path != path) })) := by
  have hveq : (versionEquals { path := path, size := size, mtime := mtime }
      dbFile = true) ↔ (size = dbFile.size ∧ mtime.sec = dbFile.mtime.sec) := by
    simp only [versionEquals, hpath, Bool.and_eq_true, beq_iff_eq]
    constructor
    · rintro ⟨⟨-, h1⟩, h2⟩
      exact ⟨h2, h1⟩
    · rintro ⟨h2, h1⟩
      exact ⟨⟨trivial, h1⟩, h2⟩
  by_cases hv : versionEquals { path := path, size := size, mtime := mtime }
      dbFile = true
  · have hpf : processFile fs path lookup =
        { file := { path := path, size := size, mtime := mtime },
          status := FileStatus.unchanged, tokens := [], err := none } := by
      simp [processFile, helig, hsize, hmtime, hlook, hv]
    constructor
    · rw [hpf]
      exact ⟨fun _ => hveq.mp hv, fun _ => ⟨rfl, rfl⟩⟩
    · intro _
      refine ⟨by rw [hpf], ?_, ?_⟩
      · intro tf'
        have hpf' : processFile { fs with tokenizeFile := tf' } path lookup =
            { file := { path := path, size := size, mtime := mtime },
              status := FileStatus.unchanged, tokens := [], err := none } := by
          simp [processFile, helig, hsize, hmtime, hlook, hv]
        rw [hpf', hpf]
      · intro st
        simp [consumeStep, hpf]
  · cases hg : getUniqueTokensOfFile fs path with
    | error e =>
      have hpf : processFile fs path lookup = { err := some e } := by
        simp [processFile, helig, hsize, hmtime, hlook, hv, hg]
      constructor
      · rw [hpf]
        constructor
        · rintro ⟨hnone, -⟩
          simp at hnone
        · intro hrhs
          exact absurd (hveq.mpr hrhs) hv
      · rintro ⟨hnone, -⟩
        rw [hpf] at hnone
        simp at hnone
    | ok toks =>
      have hpf : processFile fs path lookup =
          { file := { path := path, size := size, mtime := mtime },
            status := FileStatus.changed, tokens := toks, err := none } := by
        simp [processFile, helig, hsize, hmtime, hlook, hv, hg]
      constructor
      · rw [hpf]
        constructor
        · rintro ⟨-, hst⟩
          simp at hst
        · intro hrhs
          exact absurd (hveq.mpr hrhs) hv
      · rintro ⟨-, hst⟩
        rw [hpf] at hst
        simp at hst

/-- Witness for `processFile_unchanged_iff`: equal size and equal Unix
seconds (despite differing nanoseconds) classify `Unchanged`. -/
theorem processFile_unchanged_iff_witness :
    (processFile fsSubsecond "a" dbLookupSubsecond).err = none ∧
    (processFile fsSubsecond "a" dbLookupSubsecond).status =
      FileStatus.unchanged :=
  (processFile_unchanged_iff fsSubsecond "a" dbLookupSubsecond
    dbFileSubsecond 10 { sec := 100, nsec := 5 } rfl rfl rfl (by decide)
    rfl).1.mpr ⟨rfl, rfl⟩

/-- A filesystem in which every path fails the eligibility gate (e.g. the
file has grown past the size cap). -/
def fsIneligible : Fs :=
  { isFileEligible := fun _ => .ok false,
    size := fun _ => .ok 0,
    mtime := fun _ => .ok { sec := 0, nsec := 0 },
    tokenizeFile := fun _ => .ok [] }

/-- A store holding a previously indexed file `p` and one of its tokens. -/
def staleStore : Store :=
  { files := [{ path := "p", size := 1, mtime := { sec := 0, nsec := 0 } }],
    tokens := [{ path := "p", value := "abc" }] }

/-- C4.  A pass over a directory in which the previously indexed path `p`
is enumerated but now ineligible leaves the store completely unchanged:
`tokenizeDirectory` removes `p` from the removal lookup *before* the
status switch, so neither `p`'s File record nor its Token rows are
deleted — the pass returns with the stale token still present,
contradicting the spec's requirement that a file transitioning to
ineligible has its stale tokens pruned (earlier revisions of the loop,
which checked eligibility before touching the removal set, did prune
them). -/
theorem tokenizeDirectory_ineligible_keeps_stale :
    tokenizeDirectory fsIneligible ["p"] staleStore = .ok staleStore ∧
    ({ path := "p", value := "abc" } : DToken) ∈ staleStore.tokens ∧
    ({ path := "p", size := 1, mtime := { sec := 0, nsec := 0 } } : DFile)
      ∈ staleStore.files := by
  refine ⟨rfl, by decide, by decide⟩

/-- A trivial filesystem oracle (no path is eligible). -/
def fsTrivial : Fs :=
  { isFileEligible := fun _ => .ok false,
    size := fun _ => .ok 0,
    mtime := fun _ => .ok { sec := 0, nsec := 0 },
    tokenizeFile := fun _ => .ok [] }

/-- C5.  An indexing pass whose enumeration yields zero paths fails with
the distinct typed `ErrEmptyDir`; a non-empty enumeration proceeds with
the embedded pass.  The sampling-time "no usable tokens" condition is the
distinct typed `ErrNoTokensFound`, raised only when the reservoir sample
is empty; the two error values are different, so callers can report the
index-time and sampling-time conditions separately. -/
theorem emptyDir_reported :
    (∀ (fs : Fs) (store : Store),
        indexDirectoryChecked fs [] store = .error DomainError.emptyDir) ∧
    (∀ (fs : Fs) (paths : List String) (store : Store), paths ≠ [] →
        indexDirectoryChecked fs paths store =
          tokenizeDirectory fs paths store) ∧
    DomainError.emptyDir ≠ DomainError.noTokensFound ∧
    (∀ (g2 : Nat → Nat) (maxLen : Int),
        promptChecked [] g2 maxLen = .error DomainError.noTokensFound) ∧
    (∀ (sampled : List String) (g2 : Nat → Nat) (maxLen : Int),
        sampled ≠ [] →
        promptChecked sampled g2 maxLen =
          .ok (generatePromptFrom (Shuffle g2 sampled) maxLen)) := by
  refine ⟨fun fs store => rfl, ?_, by decide, fun g2 maxLen => rfl, ?_⟩
  · intro fs paths store hne
    cases paths with
    | nil => exact absurd rfl hne
    | cons p ps => rfl
  · intro sampled g2 maxLen hne
    cases sampled with
    | nil => exact absurd rfl hne
    | cons t ts => rfl

/-- Witness for `emptyDir_reported`: a one-path enumeration runs the
embedded pass rather than failing. -/
theorem emptyDir_reported_witness :
    (["p"] : List String) ≠ [] ∧
    indexDirectoryChecked fsTrivial ["p"] { files := [], tokens := [] } =
      tokenizeDirectory fsTrivial ["p"] { files := [], tokens := [] } :=
  ⟨by decide,
    emptyDir_reported.2.1 fsTrivial ["p"] { files := [], tokens := [] }
      (by decide)⟩
